import Mathlib

/-!
Verification of the pickleball doubles-scheduling core: pair enumeration,
backtracking game construction, greedy round packing, the opponent-imbalance
cost, and the randomized hillclimbing optimizer.

The embedding mirrors the Python source.  A `Player` is a natural number, a
`Pair` an ordered tuple of two players (the source stores partner pairs as
tuples `(i, j)` with `i < j` when produced by `all_pairs`), a `Game` holds the
two pairs facing each other (the source uses a two-element list; every game the
source ever builds has exactly two pairs, so a product type is used here), a
`Round` is a list of games and a `Schedule` a list of rounds.

The two recursive procedures of the source, `make_games` and `schedule`, are
embedded with an explicit fuel argument so that they are structurally recursive
and evaluate inside the kernel; the fuel chosen by the wrappers is proved ample
(`make_gamesF_fuel_irrel`, and the `scheduleF` lemmas for `courts ≥ 1`), so the
wrappers agree with the unbounded Python recursion wherever the latter
terminates.  The process-wide random stream of the source is modelled as an
explicit function `moves : Nat → Move` supplying, for trial `t`, the drawn game
indices and side indices that `indexes` produces.
-/

abbrev Player := Nat
abbrev Pair := Nat × Nat
abbrev Game := Pair × Pair
abbrev Round := List Game
abbrev Schedule := List Round

/-- Pin the boolean equality on pairs to the one derived from decidable
equality, so that list operations (`erase`, `count`, `==`) in the definitions
below are stated with the same instance that `Mathlib`'s `DecidableEq`-based
list lemmas use. -/
@[reducible] instance (priority := 2000) : BEq Pair := instBEqOfDecidableEq

/-- Same instance pinning for games. -/
@[reducible] instance (priority := 2000) : BEq Game := instBEqOfDecidableEq

instance : LawfulBEq Pair where
  eq_of_beq h := of_decide_eq_true h
  rfl := decide_eq_true rfl

instance : LawfulBEq Game where
  eq_of_beq h := of_decide_eq_true h
  rfl := decide_eq_true rfl

/-- `players` of a pair: the set of its two players. -/
def players_pair (p : Pair) : Finset Nat := {p.1, p.2}

/-- `players` of a game: the union over its two pairs. -/
def players_game (g : Game) : Finset Nat := players_pair g.1 ∪ players_pair g.2

/-- `players` of a round (a list of games): the union over its games. -/
def players_round (r : List Game) : Finset Nat :=
  r.foldr (fun g acc => players_game g ∪ acc) ∅

/-- `all_pairs(P) = list(combinations(range(P), 2))`: all pairs `(i, j)` with
`i < j < P` in lexicographic order. -/
def all_pairs (P : Nat) : List Pair :=
  (List.range P).flatMap (fun i => (List.range' (i+1) (P - (i+1))).map (fun j => (i, j)))

/-- The test `len(set(A + B)) == 4` from `make_games`: the four players of the
two pairs are pairwise distinct. -/
def distinct4 (A B : Pair) : Prop := (players_pair A ∪ players_pair B).card = 4

instance (A B : Pair) : Decidable (distinct4 A B) := by
  unfold distinct4; infer_instance

/-- The list comprehension `[p for p in pairs if p not in game]` with
`game = [A, B]`. -/
def removeGame (A B : Pair) (pairs : List Pair) : List Pair :=
  pairs.filter (fun p => !(p == A || p == B))

/-- The candidate scan of `make_games`: try each `B` from the remaining pairs
in order; on the first `B` forming a valid game with the anchor `A` whose
recursive call succeeds, commit; if no candidate succeeds, signal no-match
(`none`, the Python `None` fall-through). -/
def tryCands (rec : List Pair → Option (List Game)) (A : Pair) (pairs : List Pair) :
    List Pair → Option (List Game)
  | [] => none
  | B :: rest =>
    if distinct4 A B then
      match rec (removeGame A B pairs) with
      | some gs => some ((A, B) :: gs)
      | none => tryCands rec A pairs rest
    else tryCands rec A pairs rest

/-- `make_games` with explicit fuel.  With fewer than two pairs remaining it
succeeds trivially with no game; otherwise the first remaining pair is the
anchor and the candidate scan runs over the whole remaining list. -/
def make_gamesF : Nat → List Pair → Option (List Game)
  | 0, _ => none
  | _+1, [] => some []
  | _+1, [_] => some []
  | fuel+1, A :: rest => tryCands (make_gamesF fuel) A (A :: rest) (A :: rest)

/-- `make_games(pairs)`: each recursion level removes two pairs, so
`pairs.length + 1` units of fuel are ample. -/
def make_games (pairs : List Pair) : Option (List Game) :=
  make_gamesF (pairs.length + 1) pairs

/-- One `for game in list(games)` sweep of `schedule`'s inner loop: scan the
snapshot, appending a game to the round and removing it from the working list
whenever the round still has fewer than `courts` games and its players are
disjoint from the players already in the round. -/
def passStep (courts : Nat) : List Game → List Game × List Game → List Game × List Game
  | [], st => st
  | g :: snap, (round, games) =>
    if round.length < courts ∧ players_round round ∩ players_game g = ∅ then
      passStep courts snap (round ++ [g], games.erase g)
    else
      passStep courts snap (round, games)

/-- The `while games:` loop of `schedule`, with fuel.  For `courts ≥ 1` each
sweep places at least one game, so the fuel used by `schedule` is ample; for
`courts = 0` the Python loop diverges (our fuel cutoff returns a partial
schedule there, a case no claim depends on). -/
def scheduleF (courts : Nat) : Nat → List Game → Schedule
  | 0, _ => []
  | _+1, [] => []
  | fuel+1, g :: games =>
    let rg := passStep courts (g :: games) ([], g :: games)
    rg.1 :: scheduleF courts fuel rg.2

/-- `schedule(games, courts)`. -/
def schedule (games : List Game) (courts : Nat) : Schedule :=
  scheduleF courts (games.length + 1) games

/-- `pairing(p1, p2) = (min(p1, p2), max(p1, p2))`. -/
def pairing (p1 p2 : Nat) : Pair := (min p1 p2, max p1 p2)

/-- The four opponent pairings one game generates
(`for p1 in A for p2 in B`). -/
def crossPairs (g : Game) : List Pair :=
  [pairing g.1.1 g.2.1, pairing g.1.1 g.2.2, pairing g.1.2 g.2.1, pairing g.1.2 g.2.2]

/-- `opponents(games)`: the Counter of opponent pairings, as its count
function (a missing key counts 0, as for a Python `Counter`). -/
def opponents (games : List Game) (q : Pair) : Nat :=
  (games.flatMap crossPairs).count q

/-- `opp_difference(games, pairs, optimal)`: total cubed deviation of each
pair's opponent tally from `optimal`.  (The source defaults `optimal=2`;
callers here pass it explicitly.) -/
def opp_difference (games : List Game) (pairs : List Pair) (optimal : Int) : Int :=
  (pairs.map (fun p => |((opponents games p : Int)) - optimal| ^ 3)).sum

/-- A random draw for one trial: `((i, j), (a, b))` — the two game indices
from `random.sample` and the side combination from `random.choice(sides)`. -/
abbrev Move := (Nat × Nat) × (Nat × Nat)

/-- `games[g][a]` for a side index `a ∈ {0, 1}`. -/
def getSide (g : Game) (a : Nat) : Pair := if a = 0 then g.1 else g.2

/-- `games[g][a] = p` for a side index `a ∈ {0, 1}`. -/
def setSide (g : Game) (a : Nat) (p : Pair) : Game :=
  if a = 0 then (p, g.2) else (g.1, p)

/-- A default game, used only to totalize out-of-range list reads (the actual
draws of the source always index within range). -/
def dGame : Game := ((0, 0), (0, 0))

/-- `swap(games, idx)`: the simultaneous assignment
`games[g1][a], games[g2][b] = games[g2][b], games[g1][a]` — both right-hand
sides are read first, then the two slots are written in order (the second
write reads the list state left by the first, which matters when `g1 = g2`). -/
def swap (games : List Game) (idx : Move) : List Game :=
  let g1 := idx.1.1
  let g2 := idx.1.2
  let a := idx.2.1
  let b := idx.2.2
  let x := getSide (games.getD g2 dGame) b
  let y := getSide (games.getD g1 dGame) a
  let games1 := games.set g1 (setSide (games.getD g1 dGame) a x)
  games1.set g2 (setSide (games1.getD g2 dGame) b y)

/-- The mutable state of the hillclimber: the game list, the current best
schedule, and the current cost `diff`. -/
structure HState where
  games : List Game
  sched : Schedule
  diff : Int
deriving DecidableEq

/-- One trial of the hillclimber loop body: swap, re-evaluate, keep the swap
if the cost did not rise, the round count did not rise, and both touched games
still have four distinct players; otherwise swap back. -/
def trial (courts : Nat) (pairs : List Pair) (st : HState) (mv : Move) : HState :=
  let games2 := swap st.games mv
  let diff2 := opp_difference games2 pairs 2
  if diff2 ≤ st.diff ∧ (schedule games2 courts).length ≤ st.sched.length ∧
      (players_game (games2.getD mv.1.1 dGame)).card = 4 ∧
      (players_game (games2.getD mv.1.2 dGame)).card = 4 then
    ⟨games2, schedule games2 courts, diff2⟩
  else
    ⟨swap games2 mv, st.sched, st.diff⟩

/-- `for _ in range(n)` over trials, consuming `moves t, moves (t+1), ...`. -/
def runTrials (courts : Nat) (pairs : List Pair) (moves : Nat → Move) :
    Nat → Nat → HState → HState
  | _, 0, st => st
  | t, n+1, st => runTrials courts pairs moves (t+1) n (trial courts pairs st (moves t))

/-- `pickleball(P, courts, N)` including its whole state; `none` models the
two unhandled crashes of the source: `make_games` returning `None` (the
subsequent `opp_difference` raises), and `random.sample` on fewer than two
games (raises on the first trial). -/
def pickleballRun (P courts N : Nat) (moves : Nat → Move) : Option HState :=
  match make_games (all_pairs P) with
  | none => none
  | some games =>
    if N ≠ 0 ∧ games.length < 2 then none
    else some (runTrials courts (all_pairs P) moves 0 N
      ⟨games, schedule games courts, opp_difference games (all_pairs P) 2⟩)

/-- `pickleball(P, courts, N)`: the returned schedule. -/
def pickleball (P courts N : Nat) (moves : Nat → Move) : Option Schedule :=
  (pickleballRun P courts N moves).map HState.sched

/-- The copy `games = list(games)` taken at the top of `schedule`: a fresh
list built from the same elements. -/
def list_copy (l : List Game) : List Game := l.foldr List.cons []

/-- `schedule` in a state-passing reading: the caller's list is read once to
build the working copy and never written afterwards (every `games.remove`
inside the source acts on the rebound local copy), so the input list is
returned to the caller unchanged alongside the rounds. -/
def scheduleWithInput (games : List Game) (courts : Nat) : Schedule × List Game :=
  (schedule (list_copy games) courts, games)

/-- Lexicographic (strict) order on pairs, the order in which
`itertools.combinations` emits them. -/
def plex (p q : Pair) : Prop := p.1 < q.1 ∨ (p.1 = q.1 ∧ p.2 < q.2)

instance (p q : Pair) : Decidable (plex p q) := by
  unfold plex; infer_instance

/-- The pairs held across a list of games, in order. -/
def listPairsOf (D : List Game) : List Pair := D.flatMap (fun g => [g.1, g.2])

/-- A witness that `S` can be partitioned into valid games plus at most one
leftover pair, with the leftover (if any) lexicographically last in `S`.  The
backtracking search of `make_games` succeeds on any lex-sorted `S` admitting
such a decomposition (`make_games_of_goodDecomp`). -/
def GoodDecomp (S : List Pair) : Prop :=
  ∃ D R, (listPairsOf D ++ R).Perm S ∧ (∀ g ∈ D, distinct4 g.1 g.2) ∧
    (R = [] ∨ ∃ l, R = [l] ∧ ∀ x ∈ S, x = l ∨ plex x l)

/-- The games pairing the cross pairs between old players `< P` and four new
players `P..P+3`: `(i, P)` plays `((i+1) % P, P+1)` and `(i, P+2)` plays
`((i+1) % P, P+3)`.  Used in the size-four induction step showing that
`all_pairs P` always admits a decomposition. -/
def crossGames (P : Nat) : List Game :=
  (List.range P).map (fun i => ((i, P), ((i+1) % P, P+1))) ++
  (List.range P).map (fun i => ((i, P+2), ((i+1) % P, P+3)))

example : all_pairs 4 = [(0,1), (0,2), (0,3), (1,2), (1,3), (2,3)] := rfl

example : make_games (all_pairs 4) =
    some [((0,1), (2,3)), ((0,2), (1,3)), ((0,3), (1,2))] := rfl

example : (schedule ((make_games (all_pairs 8)).getD []) 2).length = 7 := rfl

/-! ### Basic facts: the four-distinct-players test -/

theorem players_pair_card_le (p : Pair) : (players_pair p).card ≤ 2 := by
  classical
  unfold players_pair
  exact (Finset.card_insert_le _ _).trans (by simp)

theorem distinct4_ne {A B : Pair} (h : distinct4 A B) : A ≠ B := by
  intro hAB
  subst hAB
  unfold distinct4 at h
  rw [Finset.union_self] at h
  have := players_pair_card_le A
  omega

theorem distinct4_symm {A B : Pair} (h : distinct4 A B) : distinct4 B A := by
  unfold distinct4 at h ⊢
  rwa [Finset.union_comm]

/-! ### Facts about `removeGame` -/

theorem filter_erase_of_neg {α : Type} [DecidableEq α] (p : α → Bool) (a : α) :
    ∀ l : List α, p a = false → (l.erase a).filter p = l.filter p := by
  intro l
  induction l with
  | nil => intro _; rfl
  | cons b l ih =>
    intro h
    by_cases hb : b = a
    · subst hb
      rw [List.erase_cons_head, List.filter_cons, h]
      simp
    · rw [List.erase_cons_tail (by simp [hb]), List.filter_cons, List.filter_cons, ih h]

theorem removeGame_eq_filter (A B : Pair) (pairs : List Pair) :
    removeGame A B pairs = pairs.filter (fun p => !(p == A || p == B)) := rfl

theorem removeGame_length_le {A B : Pair} {pairs : List Pair}
    (hA : A ∈ pairs) (hB : B ∈ pairs) (hne : A ≠ B) :
    (removeGame A B pairs).length + 2 ≤ pairs.length := by
  have hqA : (fun p : Pair => !(p == A || p == B)) A = false := by
    simp only [beq_self_eq_true, Bool.true_or, Bool.not_true]
  have hqB : (fun p : Pair => !(p == A || p == B)) B = false := by
    simp only [beq_self_eq_true, Bool.or_true, Bool.not_true]
  have h1 : (removeGame A B pairs) =
      ((pairs.erase A).erase B).filter (fun p => !(p == A || p == B)) := by
    rw [removeGame_eq_filter, filter_erase_of_neg _ B _ hqB, filter_erase_of_neg _ A _ hqA]
  have hBA : B ∈ pairs.erase A := (List.mem_erase_of_ne (Ne.symm hne)).mpr hB
  have l1 : (pairs.erase A).length = pairs.length - 1 := List.length_erase_of_mem hA
  have l2 : ((pairs.erase A).erase B).length = (pairs.erase A).length - 1 :=
    List.length_erase_of_mem hBA
  have l3 : (removeGame A B pairs).length ≤ ((pairs.erase A).erase B).length := by
    rw [h1]; exact List.length_filter_le _ _
  have hp1 : 0 < pairs.length := List.length_pos_of_mem hA
  have hp2 : 0 < (pairs.erase A).length := List.length_pos_of_mem hBA
  omega

theorem mem_removeGame {A B x : Pair} {pairs : List Pair} :
    x ∈ removeGame A B pairs ↔ x ∈ pairs ∧ x ≠ A ∧ x ≠ B := by
  rw [removeGame_eq_filter, List.mem_filter]
  simp

theorem count_removeGame (A B c : Pair) (pairs : List Pair) :
    (removeGame A B pairs).count c =
      if c = A ∨ c = B then 0 else pairs.count c := by
  by_cases h : c = A ∨ c = B
  · rw [if_pos h, List.count_eq_zero]
    intro hc
    rcases mem_removeGame.mp hc with ⟨_, h1, h2⟩
    rcases h with h | h <;> [exact h1 h; exact h2 h]
  · rw [if_neg h, removeGame_eq_filter, List.count_filter]
    push_neg at h
    simp [h.1, h.2]

theorem nodup_removeGame {A B : Pair} {pairs : List Pair} (h : pairs.Nodup) :
    (removeGame A B pairs).Nodup := h.filter _

theorem removeGame_of_nodup {A B : Pair} {pairs : List Pair} (hnd : pairs.Nodup) :
    removeGame A B pairs = (pairs.erase A).erase B := by
  have hqA : (fun p : Pair => !(p == A || p == B)) A = false := by
    simp only [beq_self_eq_true, Bool.true_or, Bool.not_true]
  have hqB : (fun p : Pair => !(p == A || p == B)) B = false := by
    simp only [beq_self_eq_true, Bool.or_true, Bool.not_true]
  have e1 : ((pairs.erase A).erase B).filter (fun p : Pair => !(p == A || p == B)) =
      (pairs.erase A).filter (fun p : Pair => !(p == A || p == B)) :=
    filter_erase_of_neg _ B _ hqB
  have e2 : (pairs.erase A).filter (fun p : Pair => !(p == A || p == B)) =
      pairs.filter (fun p : Pair => !(p == A || p == B)) :=
    filter_erase_of_neg _ A _ hqA
  have e3 : ((pairs.erase A).erase B).filter (fun p : Pair => !(p == A || p == B)) =
      (pairs.erase A).erase B := by
    rw [List.filter_eq_self]
    intro x hx
    have hxB : x ≠ B ∧ x ∈ pairs.erase A := (((hnd.erase A)).mem_erase_iff).mp hx
    have hxA : x ≠ A ∧ x ∈ pairs := (hnd.mem_erase_iff).mp hxB.2
    simp [hxA.1, hxB.1]
  rw [removeGame_eq_filter, ← e2, ← e1, e3]

theorem perm_cons_cons_removeGame {A B : Pair} {pairs : List Pair}
    (hnd : pairs.Nodup) (hA : A ∈ pairs) (hB : B ∈ pairs) (hne : A ≠ B) :
    (A :: B :: removeGame A B pairs).Perm pairs := by
  rw [removeGame_of_nodup hnd]
  have hBA : B ∈ pairs.erase A := (List.mem_erase_of_ne (Ne.symm hne)).mpr hB
  have p1 : pairs.Perm (A :: pairs.erase A) := List.perm_cons_erase hA
  have p2 : (pairs.erase A).Perm (B :: (pairs.erase A).erase B) := List.perm_cons_erase hBA
  exact ((p1.trans (p2.cons A)).symm)

/-! ### Fuel irrelevance for `make_games` -/

theorem tryCands_congr (r1 r2 : List Pair → Option (List Game)) (A : Pair) (pairs : List Pair) :
    ∀ cands, (∀ B ∈ cands, distinct4 A B →
      r1 (removeGame A B pairs) = r2 (removeGame A B pairs)) →
    tryCands r1 A pairs cands = tryCands r2 A pairs cands := by
  intro cands
  induction cands with
  | nil => intro _; rfl
  | cons B rest ih =>
    intro h
    simp only [tryCands]
    by_cases hd : distinct4 A B
    · rw [if_pos hd, if_pos hd, h B (List.mem_cons_self B rest) hd]
      cases r2 (removeGame A B pairs) with
      | none => exact ih (fun B' hB' hd' => h B' (List.mem_cons_of_mem _ hB') hd')
      | some gs => rfl
    · rw [if_neg hd, if_neg hd]
      exact ih (fun B' hB' hd' => h B' (List.mem_cons_of_mem _ hB') hd')

theorem make_gamesF_gt :
    ∀ (f g : Nat) (pairs : List Pair), pairs.length < f → pairs.length < g →
    make_gamesF f pairs = make_gamesF g pairs := by
  intro f
  induction f with
  | zero => intro g pairs h _; omega
  | succ f ih =>
    intro g pairs hf hg
    match g, pairs with
    | g+1, [] => rfl
    | g+1, [x] => rfl
    | g+1, A :: B :: t =>
      simp only [make_gamesF]
      apply tryCands_congr
      intro B' hB' hd
      have hA : A ∈ A :: B :: t := by simp
      have hlen := removeGame_length_le hA hB' (distinct4_ne hd)
      simp only [List.length_cons] at hf hg hlen
      exact ih g _ (by omega) (by omega)

theorem make_gamesF_eq_make_games {f : Nat} {pairs : List Pair} (h : pairs.length < f) :
    make_gamesF f pairs = make_games pairs :=
  make_gamesF_gt f (pairs.length + 1) pairs h (by omega)

theorem make_games_nil : make_games ([] : List Pair) = some [] := rfl

theorem make_games_singleton (p : Pair) : make_games [p] = some [] := rfl

theorem make_games_cons_cons (A B : Pair) (t : List Pair) :
    make_games (A :: B :: t) =
      tryCands (make_gamesF (t.length + 2)) A (A :: B :: t) (A :: B :: t) := rfl

/-! ### Facts about `all_pairs` -/

theorem mem_all_pairs {P : Nat} {p : Pair} : p ∈ all_pairs P ↔ p.1 < p.2 ∧ p.2 < P := by
  obtain ⟨a, b⟩ := p
  simp only [all_pairs, List.mem_flatMap, List.mem_map, List.mem_range, List.mem_range']
  constructor
  · rintro ⟨i, hi, j, ⟨k, hk, rfl⟩, hj⟩
    obtain ⟨rfl, rfl⟩ := Prod.mk.injEq .. ▸ hj
    omega
  · rintro ⟨hab, hbP⟩
    exact ⟨a, by omega, b, ⟨b - (a + 1), by omega⟩, rfl⟩

theorem plex_irrefl (x : Pair) : ¬ plex x x := by
  unfold plex; omega

theorem plex_asymm {x y : Pair} (h1 : plex x y) (h2 : plex y x) : False := by
  unfold plex at h1 h2; omega

theorem pairwise_flatMap_helper {α β : Type} {R : β → β → Prop} :
    ∀ (l : List α) (f : α → List β),
    (∀ a ∈ l, List.Pairwise R (f a)) →
    List.Pairwise (fun a b => ∀ x ∈ f a, ∀ y ∈ f b, R x y) l →
    List.Pairwise R (l.flatMap f) := by
  intro l
  induction l with
  | nil => intro f _ _; simp
  | cons a l ih =>
    intro f h1 h2
    rw [List.flatMap_cons, List.pairwise_append]
    refine ⟨h1 a (by simp), ih f (fun b hb => h1 b (by simp [hb])) (h2.sublist (by simp)), ?_⟩
    intro x hx y hy
    rcases List.mem_flatMap.mp hy with ⟨b, hb, hyb⟩
    exact (List.pairwise_cons.mp h2).1 b hb x hx y hyb

theorem pairwise_plex_all_pairs (P : Nat) : List.Pairwise plex (all_pairs P) := by
  apply pairwise_flatMap_helper
  · intro i _
    have hp : List.Pairwise (· < ·) (List.range' (i+1) (P - (i+1))) :=
      List.pairwise_lt_range' _ _
    exact hp.map _ (fun {x y} hxy => Or.inr ⟨rfl, hxy⟩)
  · have hp : List.Pairwise (· < ·) (List.range P) := List.pairwise_lt_range P
    apply hp.imp_of_mem
    intro i j _ _ hij
    intro x hx y hy
    rcases List.mem_map.mp hx with ⟨_, _, rfl⟩
    rcases List.mem_map.mp hy with ⟨_, _, rfl⟩
    exact Or.inl hij

theorem nodup_all_pairs (P : Nat) : (all_pairs P).Nodup :=
  (pairwise_plex_all_pairs P).imp (fun {x y} h => by
    intro hxy; subst hxy; exact plex_irrefl x h)

theorem count_all_pairs (P : Nat) (q : Pair) :
    (all_pairs P).count q = if q.1 < q.2 ∧ q.2 < P then 1 else 0 := by
  rw [List.count_eq_of_nodup (nodup_all_pairs P)]
  by_cases h : q.1 < q.2 ∧ q.2 < P
  · rw [if_pos (mem_all_pairs.mpr h), if_pos h]
  · rw [if_neg (fun hm => h (mem_all_pairs.mp hm)), if_neg h]

theorem all_pairs_max {P : Nat} : ∀ x ∈ all_pairs P, x = (P-2, P-1) ∨ plex x (P-2, P-1) := by
  intro x hx
  obtain ⟨a, b⟩ := x
  have h := mem_all_pairs.mp hx
  simp only at h
  unfold plex
  simp only [Prod.mk.injEq]
  omega

theorem count_map_range_pair (P c : Nat) (q : Pair) :
    ((List.range P).map (fun i => ((i, c) : Pair))).count q =
      if q.1 < P ∧ q.2 = c then 1 else 0 := by
  have hnd : ((List.range P).map (fun i => ((i, c) : Pair))).Nodup :=
    List.Nodup.map_on (fun x _ y _ h => (Prod.ext_iff.mp h).1) (List.nodup_range P)
  rw [List.count_eq_of_nodup hnd]
  obtain ⟨a, b⟩ := q
  by_cases hm : a < P ∧ b = c
  · rw [if_pos (List.mem_map.mpr ⟨a, List.mem_range.mpr hm.1, by rw [hm.2]⟩), if_pos hm]
  · rw [if_neg ?_, if_neg hm]
    intro hmem
    rcases List.mem_map.mp hmem with ⟨i, hi, heq⟩
    rw [List.mem_range] at hi
    obtain ⟨rfl, rfl⟩ := Prod.mk.injEq .. ▸ heq
    exact hm ⟨hi, rfl⟩

theorem all_pairs_succ_perm (P : Nat) :
    (all_pairs (P+1)).Perm (all_pairs P ++ (List.range P).map (fun i => ((i, P) : Pair))) := by
  rw [List.perm_iff_count]
  intro q
  rw [List.count_append, count_all_pairs, count_all_pairs, count_map_range_pair]
  obtain ⟨a, b⟩ := q
  simp only
  split_ifs <;> omega

theorem length_all_pairs (P : Nat) : 2 * (all_pairs P).length = P * (P - 1) := by
  induction P with
  | zero => rfl
  | succ P ih =>
    have hp := (all_pairs_succ_perm P).length_eq
    rw [List.length_append, List.length_map, List.length_range] at hp
    rw [hp]
    cases P with
    | zero => simp [all_pairs]
    | succ Q =>
      simp only [Nat.succ_sub_one] at ih ⊢
      nlinarith [ih]

/-! ### Pairs held by a list of games -/

theorem listPairsOf_cons (g : Game) (D : List Game) :
    listPairsOf (g :: D) = g.1 :: g.2 :: listPairsOf D := rfl

theorem listPairsOf_append (D1 D2 : List Game) :
    listPairsOf (D1 ++ D2) = listPairsOf D1 ++ listPairsOf D2 :=
  List.flatMap_append D1 D2 _

theorem perm_listPairsOf {D1 D2 : List Game} (h : D1.Perm D2) :
    (listPairsOf D1).Perm (listPairsOf D2) := by
  unfold listPairsOf
  rw [List.flatMap_def, List.flatMap_def]
  exact (h.map _).flatten

theorem mem_listPairsOf {A : Pair} {D : List Game} :
    A ∈ listPairsOf D ↔ ∃ g ∈ D, A = g.1 ∨ A = g.2 := by
  unfold listPairsOf
  rw [List.mem_flatMap]
  constructor
  · rintro ⟨g, hg, hm⟩
    exact ⟨g, hg, by simpa using hm⟩
  · rintro ⟨g, hg, hm⟩
    exact ⟨g, hg, by simpa using hm⟩

theorem nodup_of_pairwise_plex {l : List Pair} (h : List.Pairwise plex l) : l.Nodup := by
  refine h.imp fun {x y} hp => ?_
  intro he
  subst he
  exact plex_irrefl x hp

/-! ### The candidate scan: success and inversion -/

theorem tryCands_succeeds {rec : List Pair → Option (List Game)} {A : Pair}
    {pairs : List Pair} {X : Pair} {gs' : List Game} :
    ∀ cands, X ∈ cands → distinct4 A X → rec (removeGame A X pairs) = some gs' →
    ∃ gs, tryCands rec A pairs cands = some gs := by
  intro cands
  induction cands with
  | nil => intro h; simp at h
  | cons B rest ih =>
    intro hX hd hrec
    simp only [tryCands]
    by_cases hdB : distinct4 A B
    · rw [if_pos hdB]
      cases hB : rec (removeGame A B pairs) with
      | some gs => exact ⟨(A, B) :: gs, rfl⟩
      | none =>
        rcases List.mem_cons.mp hX with rfl | hX'
        · rw [hB] at hrec; cases hrec
        · exact ih hX' hd hrec
    · rw [if_neg hdB]
      rcases List.mem_cons.mp hX with rfl | hX'
      · exact absurd hd hdB
      · exact ih hX' hd hrec

theorem tryCands_some_inv {rec : List Pair → Option (List Game)} {A : Pair}
    {pairs : List Pair} {gs : List Game} :
    ∀ cands, tryCands rec A pairs cands = some gs →
    ∃ B ∈ cands, distinct4 A B ∧
      ∃ gs', rec (removeGame A B pairs) = some gs' ∧ gs = (A, B) :: gs' := by
  intro cands
  induction cands with
  | nil => intro h; simp [tryCands] at h
  | cons B rest ih =>
    intro h
    simp only [tryCands] at h
    by_cases hdB : distinct4 A B
    · rw [if_pos hdB] at h
      cases hB : rec (removeGame A B pairs) with
      | some gs' =>
        rw [hB] at h
        exact ⟨B, by simp, hdB, gs', hB, (Option.some.inj h).symm⟩
      | none =>
        rw [hB] at h
        rcases ih h with ⟨B', hB', rest'⟩
        exact ⟨B', List.mem_cons_of_mem _ hB', rest'⟩
    · rw [if_neg hdB] at h
      rcases ih h with ⟨B', hB', rest'⟩
      exact ⟨B', List.mem_cons_of_mem _ hB', rest'⟩

/-! ### Sufficiency: `make_games` succeeds on sorted lists with a good
decomposition -/

theorem make_games_of_goodDecomp :
    ∀ n (S : List Pair), S.length = n → List.Pairwise plex S → GoodDecomp S →
    ∃ gs, make_games S = some gs := by
  intro n
  induction n using Nat.strong_induction_on with
  | _ n ih =>
  intro S hSn hsort hgd
  subst hSn
  rcases S with _ | ⟨A, S1⟩
  · exact ⟨[], rfl⟩
  rcases S1 with _ | ⟨B0, t⟩
  · exact ⟨[], rfl⟩
  have hnd : (A :: B0 :: t).Nodup := nodup_of_pairwise_plex hsort
  obtain ⟨D, R, hperm, hval, hR⟩ := hgd
  have hAS : A ∈ A :: B0 :: t := by simp
  have hApD : A ∈ listPairsOf D ++ R := hperm.mem_iff.mpr hAS
  have hAD : A ∈ listPairsOf D := by
    rcases List.mem_append.mp hApD with h | hAR
    · exact h
    · exfalso
      rcases hR with rfl | ⟨l, rfl, hmax⟩
      · simp at hAR
      · have hAl : A = l := by simpa using hAR
        subst hAl
        have hB0S : B0 ∈ A :: B0 :: t := by simp
        have hpl : plex A B0 := (List.pairwise_cons.mp hsort).1 B0 (by simp)
        rcases hmax B0 hB0S with heq | hplB
        · exact plex_irrefl A (heq ▸ hpl)
        · exact plex_asymm hpl hplB
  rcases mem_listPairsOf.mp hAD with ⟨g, hgD, hAg⟩
  have hgval := hval g hgD
  obtain ⟨X, hdAX, hgpair⟩ : ∃ X, distinct4 A X ∧
      ((g.1 = A ∧ g.2 = X) ∨ (g.1 = X ∧ g.2 = A)) := by
    rcases hAg with h | h
    · exact ⟨g.2, h ▸ hgval, Or.inl ⟨h.symm, rfl⟩⟩
    · exact ⟨g.1, distinct4_symm (h ▸ hgval), Or.inr ⟨rfl, h.symm⟩⟩
  have hne : A ≠ X := distinct4_ne hdAX
  have hXD : X ∈ listPairsOf D := by
    refine mem_listPairsOf.mpr ⟨g, hgD, ?_⟩
    rcases hgpair with ⟨_, h2⟩ | ⟨h1, _⟩
    · exact Or.inr h2.symm
    · exact Or.inl h1.symm
  have hXS : X ∈ A :: B0 :: t := hperm.mem_iff.mp (List.mem_append.mpr (Or.inl hXD))
  have hpermS : (A :: X :: removeGame A X (A :: B0 :: t)).Perm (A :: B0 :: t) :=
    perm_cons_cons_removeGame hnd hAS hXS hne
  have hlen : (removeGame A X (A :: B0 :: t)).length + 2 = (A :: B0 :: t).length := by
    have h := hpermS.length_eq
    simp only [List.length_cons] at h ⊢
    omega
  have hsort' : List.Pairwise plex (removeGame A X (A :: B0 :: t)) := hsort.filter _
  have hLP : (listPairsOf D).Perm (g.1 :: g.2 :: listPairsOf (D.erase g)) :=
    perm_listPairsOf (List.perm_cons_erase hgD)
  have e1 : ((g.1 :: g.2 :: listPairsOf (D.erase g)) ++ R).Perm (listPairsOf D ++ R) :=
    hLP.symm.append_right R
  have e2 : (A :: X :: (listPairsOf (D.erase g) ++ R)).Perm
      ((g.1 :: g.2 :: listPairsOf (D.erase g)) ++ R) := by
    rcases hgpair with ⟨h1, h2⟩ | ⟨h1, h2⟩
    · rw [h1, h2]; rfl
    · rw [h1, h2]; exact List.Perm.swap X A _
  have key : (A :: X :: (listPairsOf (D.erase g) ++ R)).Perm
      (A :: X :: removeGame A X (A :: B0 :: t)) :=
    ((e2.trans e1).trans hperm).trans hpermS.symm
  have hpermS' : (listPairsOf (D.erase g) ++ R).Perm (removeGame A X (A :: B0 :: t)) :=
    key.cons_inv.cons_inv
  have hR' : R = [] ∨ ∃ l, R = [l] ∧
      ∀ x ∈ removeGame A X (A :: B0 :: t), x = l ∨ plex x l := by
    rcases hR with rfl | ⟨l, rfl, hmax⟩
    · exact Or.inl rfl
    · exact Or.inr ⟨l, rfl, fun x hx => hmax x (mem_removeGame.mp hx).1⟩
  have hgd' : GoodDecomp (removeGame A X (A :: B0 :: t)) :=
    ⟨D.erase g, R, hpermS', fun g' hg' => hval g' (List.mem_of_mem_erase hg'), hR'⟩
  obtain ⟨gs', hgs'⟩ := ih (removeGame A X (A :: B0 :: t)).length (by simp at hlen ⊢; omega)
    (removeGame A X (A :: B0 :: t)) rfl hsort' hgd'
  have hrec : make_gamesF (t.length + 2) (removeGame A X (A :: B0 :: t)) = some gs' := by
    rw [make_gamesF_eq_make_games (by simp at hlen; omega)]
    exact hgs'
  obtain ⟨gs, hgs⟩ := tryCands_succeeds (A :: B0 :: t) hXS hdAX hrec
  exact ⟨gs, by rw [make_games_cons_cons]; exact hgs⟩

/-! ### Soundness: a successful `make_games` consumes each pair exactly once,
with zero or one leftover by parity -/

theorem make_gamesF_sound :
    ∀ fuel (S : List Pair) gs, S.length < fuel → S.Nodup → make_gamesF fuel S = some gs →
    ∃ R, (listPairsOf gs ++ R).Perm S ∧ R.length = S.length % 2 ∧
      ∀ g ∈ gs, distinct4 g.1 g.2 := by
  intro fuel
  induction fuel with
  | zero => intro S gs h _ _; omega
  | succ fuel ih =>
    intro S gs hlen hnd hmk
    rcases S with _ | ⟨A, _ | ⟨B0, t⟩⟩
    · have hgs : gs = [] := Option.some.inj hmk.symm
      subst hgs
      exact ⟨[], by simp [listPairsOf], rfl, by simp⟩
    · have hgs : gs = [] := Option.some.inj hmk.symm
      subst hgs
      exact ⟨[A], by simp [listPairsOf], rfl, by simp⟩
    · have hmk' : tryCands (make_gamesF fuel) A (A :: B0 :: t) (A :: B0 :: t) = some gs := hmk
      obtain ⟨B, hBmem, hdAB, gs', hrec, rfl⟩ := tryCands_some_inv _ hmk'
      have hAmem : A ∈ A :: B0 :: t := by simp
      have hne := distinct4_ne hdAB
      have hperm := perm_cons_cons_removeGame hnd hAmem hBmem hne
      have hlen2 : (removeGame A B (A :: B0 :: t)).length + 2 = (A :: B0 :: t).length := by
        have h := hperm.length_eq
        simp only [List.length_cons] at h ⊢
        omega
      have hnd' : (removeGame A B (A :: B0 :: t)).Nodup := nodup_removeGame hnd
      obtain ⟨R, hR1, hR2, hR3⟩ := ih _ gs'
        (by simp only [List.length_cons] at hlen2 hlen; omega) hnd' hrec
      refine ⟨R, ?_, ?_, ?_⟩
      · have he : listPairsOf ((A, B) :: gs') ++ R = A :: B :: (listPairsOf gs' ++ R) := rfl
        rw [he]
        exact ((hR1.cons B).cons A).trans hperm
      · rw [hR2]
        simp at hlen2 ⊢
        omega
      · intro g hg
        rcases List.mem_cons.mp hg with rfl | hg'
        · exact hdAB
        · exact hR3 g hg'

theorem make_games_sound {S : List Pair} {gs : List Game}
    (hnd : S.Nodup) (hmk : make_games S = some gs) :
    ∃ R, (listPairsOf gs ++ R).Perm S ∧ R.length = S.length % 2 ∧
      ∀ g ∈ gs, distinct4 g.1 g.2 :=
  make_gamesF_sound (S.length + 1) S gs (by omega) hnd hmk

/-! ### Counting lemmas for the decomposition construction -/

theorem count_range (n a : Nat) : (List.range n).count a = if a < n then 1 else 0 := by
  rw [List.count_eq_of_nodup (List.nodup_range (n := n))]
  simp [List.mem_range]

theorem succ_mod_self {P z : Nat} (hz : z < P) :
    (z+1) % P = if z + 1 = P then 0 else z + 1 := by
  by_cases h : z + 1 = P
  · rw [if_pos h, h, Nat.mod_self]
  · rw [if_neg h, Nat.mod_eq_of_lt (by omega)]

theorem count_rot {P : Nat} (hP : 0 < P) (a : Nat) :
    ((List.range P).map (fun i => (i+1) % P)).count a = if a < P then 1 else 0 := by
  have hnd : ((List.range P).map (fun i => (i+1) % P)).Nodup := by
    refine List.Nodup.map_on ?_ (List.nodup_range (n := P))
    intro x hx y hy h
    rw [List.mem_range] at hx hy
    rw [succ_mod_self hx, succ_mod_self hy] at h
    split_ifs at h <;> omega
  rw [List.count_eq_of_nodup hnd]
  by_cases ha : a < P
  · have hmem : a ∈ (List.range P).map (fun i => (i+1) % P) := by
      refine List.mem_map.mpr
        ⟨if a = 0 then P - 1 else a - 1, List.mem_range.mpr (by split_ifs <;> omega), ?_⟩
      by_cases h0 : a = 0
      · rw [if_pos h0, h0]
        have he : P - 1 + 1 = P := by omega
        rw [he, Nat.mod_self]
      · rw [if_neg h0]
        have he : a - 1 + 1 = a := by omega
        rw [he, Nat.mod_eq_of_lt ha]
    rw [if_pos hmem, if_pos ha]
  · have hmem : a ∉ (List.range P).map (fun i => (i+1) % P) := by
      intro hm
      rcases List.mem_map.mp hm with ⟨i, _, hieq⟩
      exact ha (hieq ▸ Nat.mod_lt _ hP)
    rw [if_neg hmem, if_neg ha]

theorem count_map_pair_fst (l : List Nat) (c : Nat) (q : Pair) :
    (l.map (fun j => ((j, c) : Pair))).count q = if q.2 = c then l.count q.1 else 0 := by
  obtain ⟨a, b⟩ := q
  induction l with
  | nil => simp
  | cons x l ih =>
    simp only [List.map_cons, List.count_cons, ih, beq_iff_eq, Prod.mk.injEq]
    split_ifs <;> omega

theorem count_listPairsOf_map {α : Type} (l : List α) (u v : α → Pair) (q : Pair) :
    (listPairsOf (l.map (fun x => ((u x, v x) : Game)))).count q =
      (l.map u).count q + (l.map v).count q := by
  induction l with
  | nil => rfl
  | cons x l ih =>
    simp only [List.map_cons, listPairsOf_cons, List.count_cons, ih]
    split_ifs <;> omega

theorem count_listPairsOf_crossGames {P : Nat} (hP : 0 < P) (q : Pair) :
    (listPairsOf (crossGames P)).count q =
      if q.1 < P ∧ (q.2 = P ∨ q.2 = P+1 ∨ q.2 = P+2 ∨ q.2 = P+3) then 1 else 0 := by
  obtain ⟨a, b⟩ := q
  unfold crossGames
  rw [listPairsOf_append, List.count_append, count_listPairsOf_map, count_listPairsOf_map]
  have e1 : (List.range P).map (fun i => (((i+1) % P, P+1) : Pair)) =
      ((List.range P).map (fun i => (i+1) % P)).map (fun j => ((j, P+1) : Pair)) := by
    rw [List.map_map]; rfl
  have e2 : (List.range P).map (fun i => (((i+1) % P, P+3) : Pair)) =
      ((List.range P).map (fun i => (i+1) % P)).map (fun j => ((j, P+3) : Pair)) := by
    rw [List.map_map]; rfl
  rw [e1, e2, count_map_pair_fst, count_map_pair_fst, count_map_pair_fst, count_map_pair_fst,
    count_range, count_rot hP]
  simp only
  split_ifs <;> omega

theorem card4 {a b c d : Nat} (h1 : a ≠ b) (h2 : a ≠ c) (h3 : a ≠ d)
    (h4 : b ≠ c) (h5 : b ≠ d) (h6 : c ≠ d) :
    (({a, b} : Finset Nat) ∪ {c, d}).card = 4 := by
  have he : ({a, b} : Finset Nat) ∪ {c, d} = {a, b, c, d} := by
    ext x
    simp only [Finset.mem_union, Finset.mem_insert, Finset.mem_singleton]
    tauto
  rw [he, Finset.card_insert_of_not_mem (by simp [h1, h2, h3]),
    Finset.card_insert_of_not_mem (by simp [h4, h5]),
    Finset.card_insert_of_not_mem (by simp [h6]), Finset.card_singleton]

theorem distinct4_mk {a b c d : Nat} (h1 : a ≠ b) (h2 : a ≠ c) (h3 : a ≠ d)
    (h4 : b ≠ c) (h5 : b ≠ d) (h6 : c ≠ d) :
    distinct4 (a, b) (c, d) := by
  unfold distinct4 players_pair
  exact card4 h1 h2 h3 h4 h5 h6

theorem crossGames_valid {P : Nat} (hP : 2 ≤ P) :
    ∀ g ∈ crossGames P, distinct4 g.1 g.2 := by
  intro g hg
  unfold crossGames at hg
  rcases List.mem_append.mp hg with h | h <;>
    rcases List.mem_map.mp h with ⟨i, hi, rfl⟩ <;>
    rw [List.mem_range] at hi <;>
    [skip; skip] <;>
    (have hm := succ_mod_self (P := P) (z := i) hi
     have hlt : (i+1) % P < P := Nat.mod_lt _ (by omega)
     have hne : (i+1) % P ≠ i := by split_ifs at hm <;> omega
     exact distinct4_mk (by omega) (by omega) (by omega) (by omega) (by omega) (by omega))

/-! ### The decomposition construction: step `P → P + 4` and small bases -/

theorem listPairsOf_nil : listPairsOf [] = [] := rfl

theorem all_pairs_max4 {P : Nat} :
    ∀ x ∈ all_pairs (P+4), x = (P+2, P+3) ∨ plex x (P+2, P+3) := by
  have e : (((P+4) - 2 : Nat), ((P+4) - 1 : Nat)) = ((P+2 : Nat), (P+3 : Nat)) := by
    have e1 : (P+4) - 2 = P+2 := by omega
    have e2 : (P+4) - 1 = P+3 := by omega
    rw [e1, e2]
  intro x hx
  have h := all_pairs_max x hx
  rwa [e] at h

set_option maxHeartbeats 3200000 in
theorem goodDecomp_step {P : Nat} (hP : 4 ≤ P) (h : GoodDecomp (all_pairs P)) :
    GoodDecomp (all_pairs (P+4)) := by
  obtain ⟨D, R, hperm, hval, hR⟩ := h
  have hcnt : ∀ q : Pair, (listPairsOf D).count q + R.count q = (all_pairs P).count q := by
    intro q
    have hc := hperm.count_eq q
    rwa [List.count_append] at hc
  rcases hR with rfl | ⟨l, rfl, hmaxl⟩
  · refine ⟨D ++ [((P,P+1),(P+2,P+3)), ((P,P+2),(P+1,P+3)), ((P,P+3),(P+1,P+2))] ++
      crossGames P, [], ?_, ?_, Or.inl rfl⟩
    · rw [List.perm_iff_count]
      intro q
      obtain ⟨a, b⟩ := q
      have hD := hcnt (a, b)
      rw [count_all_pairs] at hD
      simp only [List.count_nil, Nat.add_zero] at hD
      have emid : listPairsOf [((P,P+1),(P+2,P+3)), ((P,P+2),(P+1,P+3)), ((P,P+3),(P+1,P+2))] =
        [(P,P+1), (P+2,P+3), (P,P+2), (P+1,P+3), (P,P+3), (P+1,P+2)] := rfl
      rw [List.append_nil, listPairsOf_append, listPairsOf_append, List.count_append,
        List.count_append, count_listPairsOf_crossGames (by omega), count_all_pairs, emid]
      simp only [List.count_cons, List.count_nil, beq_iff_eq, Prod.mk.injEq]
      split_ifs at hD ⊢ <;> omega
    · intro g hg
      rcases List.mem_append.mp hg with hg | hcross
      · rcases List.mem_append.mp hg with hg | hmid
        · exact hval g hg
        · simp only [List.mem_cons, List.not_mem_nil, or_false] at hmid
          rcases hmid with rfl | rfl | rfl
          · exact distinct4_mk (by omega) (by omega) (by omega) (by omega) (by omega) (by omega)
          · exact distinct4_mk (by omega) (by omega) (by omega) (by omega) (by omega) (by omega)
          · exact distinct4_mk (by omega) (by omega) (by omega) (by omega) (by omega) (by omega)
      · exact crossGames_valid (by omega) g hcross
  · obtain ⟨l1, l2⟩ := l
    have hlmem : (l1, l2) ∈ all_pairs P := hperm.mem_iff.mp (by simp)
    have hlb := mem_all_pairs.mp hlmem
    simp only at hlb
    refine ⟨D ++ [(((l1,l2) : Pair), ((P,P+1) : Pair)), ((P,P+2),(P+1,P+3)),
      ((P,P+3),(P+1,P+2))] ++ crossGames P, [(P+2,P+3)], ?_, ?_,
      Or.inr ⟨(P+2,P+3), rfl, all_pairs_max4⟩⟩
    · rw [List.perm_iff_count]
      intro q
      obtain ⟨a, b⟩ := q
      have hD := hcnt (a, b)
      rw [count_all_pairs] at hD
      simp only [List.count_cons, List.count_nil, beq_iff_eq, Prod.mk.injEq,
        Nat.zero_add] at hD
      have emid : listPairsOf [(((l1,l2) : Pair), ((P,P+1) : Pair)), ((P,P+2),(P+1,P+3)),
          ((P,P+3),(P+1,P+2))] =
        [(l1,l2), (P,P+1), (P,P+2), (P+1,P+3), (P,P+3), (P+1,P+2)] := rfl
      rw [listPairsOf_append, listPairsOf_append, List.count_append, List.count_append,
        List.count_append, count_listPairsOf_crossGames (by omega), count_all_pairs, emid]
      simp only [List.count_cons, List.count_nil, beq_iff_eq, Prod.mk.injEq]
      split_ifs at hD ⊢ <;> omega
    · intro g hg
      rcases List.mem_append.mp hg with hg | hcross
      · rcases List.mem_append.mp hg with hg | hmid
        · exact hval g hg
        · simp only [List.mem_cons, List.not_mem_nil, or_false] at hmid
          rcases hmid with rfl | rfl | rfl
          · exact distinct4_mk (by omega) (by omega) (by omega) (by omega) (by omega) (by omega)
          · exact distinct4_mk (by omega) (by omega) (by omega) (by omega) (by omega) (by omega)
          · exact distinct4_mk (by omega) (by omega) (by omega) (by omega) (by omega) (by omega)
      · exact crossGames_valid (by omega) g hcross

theorem goodDecomp_all_pairs : ∀ P, 4 ≤ P → GoodDecomp (all_pairs P) := by
  intro P
  induction P using Nat.strong_induction_on with
  | _ P ih =>
  intro hP
  by_cases h8 : P < 8
  · interval_cases P
    · exact ⟨[((0,1),(2,3)), ((0,2),(1,3)), ((0,3),(1,2))], [],
        List.isPerm_iff.mp (by decide), by decide, Or.inl rfl⟩
    · exact ⟨[((0,1),(2,3)), ((0,2),(1,4)), ((0,3),(2,4)), ((0,4),(1,3)), ((1,2),(3,4))], [],
        List.isPerm_iff.mp (by decide), by decide, Or.inl rfl⟩
    · exact ⟨[((0,1),(2,3)), ((0,2),(1,3)), ((0,3),(1,2)), ((0,4),(1,5)), ((0,5),(1,4)),
        ((2,4),(3,5)), ((2,5),(3,4))], [(4,5)],
        List.isPerm_iff.mp (by decide), by decide, Or.inr ⟨(4,5), rfl, by decide⟩⟩
    · exact ⟨[((0,1),(2,3)), ((0,2),(1,3)), ((0,3),(1,2)), ((0,4),(1,5)), ((0,5),(1,4)),
        ((0,6),(2,4)), ((1,6),(2,5)), ((2,6),(3,4)), ((3,5),(4,6)), ((3,6),(4,5))], [(5,6)],
        List.isPerm_iff.mp (by decide), by decide, Or.inr ⟨(5,6), rfl, by decide⟩⟩
  · have hstep := goodDecomp_step (P := P - 4) (by omega) (ih (P - 4) (by omega) (by omega))
    have he : P - 4 + 4 = P := by omega
    rwa [he] at hstep

/-! ### Arithmetic: parity of the pair count and the game-count formula -/

theorem all_pairs_arith {P : Nat} (hP : 4 ≤ P) :
    (all_pairs P).length % 2 = (if P % 4 = 0 ∨ P % 4 = 1 then 0 else 1) ∧
    ∀ G, 2 * G + (all_pairs P).length % 2 = (all_pairs P).length →
      G = P * (P - 1) / 4 := by
  have h2L := length_all_pairs P
  obtain ⟨q, s, hs, hPq⟩ : ∃ q s, s < 4 ∧ P = 4*q + 4 + s :=
    ⟨(P-4)/4, (P-4)%4, Nat.mod_lt _ (by norm_num), by omega⟩
  subst hPq
  set L := (all_pairs (4*q + 4 + s)).length with hL
  interval_cases s
  · have hm : 4*q + 4 + 0 - 1 = 4*q + 3 := by omega
    rw [hm] at h2L ⊢
    have hprod : (4*q + 4 + 0) * (4*q + 3) = 2 * (2 * ((q+1) * (4*q+3))) := by ring
    rw [hprod] at h2L
    have hLX : L = 2 * ((q+1) * (4*q+3)) := Nat.eq_of_mul_eq_mul_left (by norm_num) h2L
    constructor
    · rw [if_pos (Or.inl (by omega))]; omega
    · intro G hG
      have hprod4 : (4*q + 4 + 0) * (4*q + 3) = 4 * ((q+1) * (4*q+3)) := by ring
      rw [hprod4]
      omega
  · have hm : 4*q + 4 + 1 - 1 = 4*q + 4 := by omega
    rw [hm] at h2L ⊢
    have hprod : (4*q + 4 + 1) * (4*q + 4) = 2 * (2 * ((4*q+5) * (q+1))) := by ring
    rw [hprod] at h2L
    have hLX : L = 2 * ((4*q+5) * (q+1)) := Nat.eq_of_mul_eq_mul_left (by norm_num) h2L
    constructor
    · rw [if_pos (Or.inr (by omega))]; omega
    · intro G hG
      have hprod4 : (4*q + 4 + 1) * (4*q + 4) = 4 * ((4*q+5) * (q+1)) := by ring
      rw [hprod4]
      omega
  · have hm : 4*q + 4 + 2 - 1 = 4*q + 5 := by omega
    rw [hm] at h2L ⊢
    have hprod : (4*q + 4 + 2) * (4*q + 5) = 2 * ((2*q+3) * (4*q+5)) := by ring
    rw [hprod] at h2L
    have hLX : L = (2*q+3) * (4*q+5) := Nat.eq_of_mul_eq_mul_left (by norm_num) h2L
    have hodd : (2*q+3) * (4*q+5) = 2 * (4*q*q + 11*q + 7) + 1 := by ring
    constructor
    · rw [if_neg (by omega)]; omega
    · intro G hG
      have hprod4 : (4*q + 4 + 2) * (4*q + 5) = 4 * (4*q*q + 11*q + 7) + 2 := by ring
      rw [hprod4]
      omega
  · have hm : 4*q + 4 + 3 - 1 = 4*q + 6 := by omega
    rw [hm] at h2L ⊢
    have hprod : (4*q + 4 + 3) * (4*q + 6) = 2 * ((4*q+7) * (2*q+3)) := by ring
    rw [hprod] at h2L
    have hLX : L = (4*q+7) * (2*q+3) := Nat.eq_of_mul_eq_mul_left (by norm_num) h2L
    have hodd : (4*q+7) * (2*q+3) = 2 * (4*q*q + 13*q + 10) + 1 := by ring
    constructor
    · rw [if_neg (by omega)]; omega
    · intro G hG
      have hprod4 : (4*q + 4 + 3) * (4*q + 6) = 4 * (4*q*q + 13*q + 10) + 2 := by ring
      rw [hprod4]
      omega

theorem length_listPairsOf (D : List Game) : (listPairsOf D).length = 2 * D.length := by
  induction D with
  | nil => rfl
  | cons g D ih =>
    simp only [listPairsOf_cons, List.length_cons, ih]
    omega

/-- C4: for every `P ≥ 4`, `make_games(all_pairs(P))` succeeds; every input
pair is consumed by exactly one produced game except for a leftover of zero
pairs when `P % 4 ∈ {0, 1}` (i.e. `4 ∣ P` or `4 ∣ P−1`) and exactly one pair
otherwise; consequently exactly `⌊P(P−1)/4⌋` games are produced. -/
theorem make_games_all_pairs_spec (P : Nat) (hP : 4 ≤ P) :
    ∃ gs R, make_games (all_pairs P) = some gs ∧
      (listPairsOf gs ++ R).Perm (all_pairs P) ∧
      (∀ p ∈ all_pairs P, (listPairsOf gs).count p + R.count p = 1) ∧
      R.length = (if P % 4 = 0 ∨ P % 4 = 1 then 0 else 1) ∧
      gs.length = P * (P - 1) / 4 := by
  obtain ⟨gs, hgs⟩ := make_games_of_goodDecomp (all_pairs P).length (all_pairs P) rfl
    (pairwise_plex_all_pairs P) (goodDecomp_all_pairs P hP)
  obtain ⟨R, hR1, hR2, hR3⟩ := make_games_sound (nodup_all_pairs P) hgs
  obtain ⟨hmod, hdiv⟩ := all_pairs_arith hP
  refine ⟨gs, R, hgs, hR1, ?_, ?_, ?_⟩
  · intro p hp
    have hc := hR1.count_eq p
    rw [List.count_append] at hc
    rw [hc, List.count_eq_of_nodup (nodup_all_pairs P), if_pos hp]
  · rw [hR2, hmod]
  · have hlen := hR1.length_eq
    rw [List.length_append, length_listPairsOf] at hlen
    exact hdiv gs.length (by omega)

/-- Closed-form check of `make_games_all_pairs_spec` at `P = 6` (a case with
a dropped pair). -/
theorem make_games_all_pairs_spec_witness :
    4 ≤ 6 ∧ (∃ gs R, make_games (all_pairs 6) = some gs ∧
      (listPairsOf gs ++ R).Perm (all_pairs 6) ∧
      (∀ p ∈ all_pairs 6, (listPairsOf gs).count p + R.count p = 1) ∧
      R.length = (if 6 % 4 = 0 ∨ 6 % 4 = 1 then 0 else 1) ∧
      gs.length = 6 * (6 - 1) / 4) :=
  ⟨by omega, make_games_all_pairs_spec 6 (by omega)⟩

/-! ### The greedy round packer -/

theorem players_game_mem_fst (g : Game) : g.1.1 ∈ players_game g := by
  simp [players_game, players_pair]

theorem players_round_cons (g : Game) (r : List Game) :
    players_round (g :: r) = players_game g ∪ players_round r := rfl

theorem subset_players_round {g : Game} {r : List Game} (h : g ∈ r) :
    players_game g ⊆ players_round r := by
  induction r with
  | nil => simp at h
  | cons x r ih =>
    rw [players_round_cons]
    rcases List.mem_cons.mp h with rfl | h'
    · exact Finset.subset_union_left
    · exact (ih h').trans Finset.subset_union_right

theorem passStep_master (C : Nat) :
    ∀ snap round games,
    (∀ x ∈ snap, x ∈ games ∨ x ∈ round) →
    round.length ≤ C →
    List.Pairwise (fun g1 g2 => players_game g1 ∩ players_game g2 = ∅) round →
    ((passStep C snap (round, games)).1 ++ (passStep C snap (round, games)).2).Perm
      (round ++ games) ∧
    (passStep C snap (round, games)).1.length ≤ C ∧
    List.Pairwise (fun g1 g2 => players_game g1 ∩ players_game g2 = ∅)
      (passStep C snap (round, games)).1 ∧
    (passStep C snap (round, games)).2.length ≤ games.length := by
  intro snap
  induction snap with
  | nil =>
    intro round games _ h2 h3
    exact ⟨List.Perm.refl _, h2, h3, le_refl _⟩
  | cons g snap ih =>
    intro round games h1 h2 h3
    simp only [passStep]
    by_cases hc : round.length < C ∧ players_round round ∩ players_game g = ∅
    · rw [if_pos hc]
      have hg : g ∈ games := by
        rcases h1 g (by simp) with h | hg_round
        · exact h
        · exfalso
          have hsub := subset_players_round hg_round
          have hmem : g.1.1 ∈ players_game g := players_game_mem_fst g
          have hin : g.1.1 ∈ players_round round ∩ players_game g :=
            Finset.mem_inter.mpr ⟨hsub hmem, hmem⟩
          rw [hc.2] at hin
          exact absurd hin (Finset.not_mem_empty _)
      have hperm_g : games.Perm (g :: games.erase g) := List.perm_cons_erase hg
      have h1' : ∀ x ∈ snap, x ∈ games.erase g ∨ x ∈ round ++ [g] := by
        intro x hx
        rcases h1 x (by simp [hx]) with h | h
        · by_cases hxg : x = g
          · exact Or.inr (by simp [hxg])
          · exact Or.inl ((List.mem_erase_of_ne hxg).mpr h)
        · exact Or.inr (by simp [h])
      have h2' : (round ++ [g]).length ≤ C := by
        simp only [List.length_append, List.length_singleton]
        omega
      have h3' : List.Pairwise (fun g1 g2 => players_game g1 ∩ players_game g2 = ∅)
          (round ++ [g]) := by
        rw [List.pairwise_append]
        refine ⟨h3, by simp, ?_⟩
        intro a ha b hb
        rw [List.mem_singleton] at hb
        have hsub := subset_players_round ha
        have hs : players_game a ∩ players_game g ⊆
            players_round round ∩ players_game g :=
          Finset.inter_subset_inter hsub (le_refl _)
        rw [hc.2] at hs
        rw [hb]
        exact Finset.subset_empty.mp hs
      obtain ⟨p1, p2, p3, p4⟩ := ih (round ++ [g]) (games.erase g) h1' h2' h3'
      refine ⟨?_, p2, p3, ?_⟩
      · refine p1.trans ?_
        have e : (round ++ [g]) ++ games.erase g = round ++ (g :: games.erase g) := by
          simp [List.append_assoc]
        rw [e]
        exact (hperm_g.symm).append_left round
      · have hle := List.length_erase_of_mem hg
        have hpos := List.length_pos_of_mem hg
        omega
    · rw [if_neg hc]
      exact ih round games (fun x hx => h1 x (by simp [hx])) h2 h3

theorem passStep_progress {C : Nat} (hC : 1 ≤ C) (g : Game) (games : List Game) :
    (passStep C (g :: games) ([], g :: games)).2.length ≤ games.length := by
  have hcond : ([] : List Game).length < C ∧
      players_round [] ∩ players_game g = ∅ := by
    constructor
    · simpa using hC
    · simp [players_round]
  simp only [passStep]
  rw [if_pos hcond, List.erase_cons_head]
  exact (passStep_master C games [g] games (fun x hx => Or.inl hx)
    (by simpa using hC) (by simp)).2.2.2

theorem scheduleF_correct {C : Nat} (hC : 1 ≤ C) :
    ∀ fuel games, games.length < fuel →
    (((scheduleF C fuel games).flatMap id).Perm games ∧
      ∀ r ∈ scheduleF C fuel games, r.length ≤ C ∧
        List.Pairwise (fun g1 g2 => players_game g1 ∩ players_game g2 = ∅) r) := by
  intro fuel
  induction fuel with
  | zero => intro games h; omega
  | succ fuel ih =>
    intro games hlen
    rcases games with _ | ⟨g, gs⟩
    · exact ⟨by simp [scheduleF], by simp [scheduleF]⟩
    · simp only [scheduleF]
      have hmaster := passStep_master C (g :: gs) [] (g :: gs)
        (fun x hx => Or.inl hx) (by simp) (by simp)
      have hprog : (passStep C (g :: gs) ([], g :: gs)).2.length ≤ gs.length :=
        passStep_progress hC g gs
      obtain ⟨ihp, ihr⟩ := ih (passStep C (g :: gs) ([], g :: gs)).2
        (by simp only [List.length_cons] at hlen; omega)
      constructor
      · simp only [List.flatMap_cons, id]
        refine (ihp.append_left _).trans ?_
        have h1 := hmaster.1
        simpa using h1
      · intro r hr
        rcases List.mem_cons.mp hr with rfl | hr'
        · exact ⟨hmaster.2.1, hmaster.2.2.1⟩
        · exact ihr r hr'

/-- C5: for every game list and `courts ≥ 1`, `schedule` places every input
game in exactly one round (the concatenation of the rounds is a permutation
of the input), any two games within a round have disjoint player sets, and no
round holds more than `courts` games. -/
theorem schedule_spec (games : List Game) (C : Nat) (hC : 1 ≤ C) :
    ((schedule games C).flatMap id).Perm games ∧
    ∀ r ∈ schedule games C, r.length ≤ C ∧
      List.Pairwise (fun g1 g2 => players_game g1 ∩ players_game g2 = ∅) r :=
  scheduleF_correct hC (games.length + 1) games (by omega)

/-- Closed-form check of `schedule_spec` on a concrete two-game input. -/
theorem schedule_spec_witness :
    1 ≤ 2 ∧ ((schedule [((0,1),(2,3)), ((0,2),(1,3))] 2).flatMap id).Perm
        [((0,1),(2,3)), ((0,2),(1,3))] ∧
      ∀ r ∈ schedule [((0,1),(2,3)), ((0,2),(1,3))] 2, r.length ≤ 2 ∧
        List.Pairwise (fun g1 g2 => players_game g1 ∩ players_game g2 = ∅) r :=
  ⟨by omega, schedule_spec [((0,1),(2,3)), ((0,2),(1,3))] 2 (by omega)⟩

/-! ### `schedule` does not mutate its input -/

theorem list_copy_eq (l : List Game) : list_copy l = l := by
  induction l with
  | nil => rfl
  | cons g l ih =>
    show g :: list_copy l = g :: l
    rw [ih]

/-- C9: in the state-passing reading of `schedule(games, courts)` — the
source copies the input (`games = list(games)`) and every later removal acts
on the copy — the caller's list comes back unchanged, and the rounds computed
from the copy are exactly `schedule` of the original. -/
theorem schedule_preserves_input (games : List Game) (courts : Nat) :
    (scheduleWithInput games courts).2 = games ∧
    (scheduleWithInput games courts).1 = schedule games courts := by
  constructor
  · rfl
  · unfold scheduleWithInput
    rw [list_copy_eq]

/-! ### The hillclimber: accepted trials never worsen cost or round count -/

theorem trial_mono (C : Nat) (pairs : List Pair) (st : HState) (mv : Move) :
    (trial C pairs st mv).sched.length ≤ st.sched.length ∧
    (trial C pairs st mv).diff ≤ st.diff := by
  unfold trial
  dsimp only
  split_ifs with h
  · exact ⟨h.2.1, h.1⟩
  · exact ⟨le_refl _, le_refl _⟩

theorem runTrials_mono (C : Nat) (pairs : List Pair) (moves : Nat → Move) :
    ∀ n t st, (runTrials C pairs moves t n st).sched.length ≤ st.sched.length ∧
      (runTrials C pairs moves t n st).diff ≤ st.diff := by
  intro n
  induction n with
  | zero => intro t st; exact ⟨le_refl _, le_refl _⟩
  | succ n ih =>
    intro t st
    simp only [runTrials]
    have h1 := trial_mono C pairs st (moves t)
    have h2 := ih (t+1) (trial C pairs st (moves t))
    exact ⟨h2.1.trans h1.1, h2.2.trans h1.2⟩

/-- C1: across all trials of `pickleball`, the tracked best schedule's round
count never exceeds the initial schedule's round count and the tracked
opponent-imbalance cost never exceeds the initial cost; in particular any
returned schedule has at most as many rounds as
`schedule(make_games(all_pairs(P)), courts)`. -/
theorem pickleball_non_worsening (P courts N : Nat) (moves : Nat → Move)
    (g0 : List Game) (h : make_games (all_pairs P) = some g0) :
    (∀ k, (runTrials courts (all_pairs P) moves 0 k
        ⟨g0, schedule g0 courts, opp_difference g0 (all_pairs P) 2⟩).sched.length ≤
          (schedule g0 courts).length ∧
      (runTrials courts (all_pairs P) moves 0 k
        ⟨g0, schedule g0 courts, opp_difference g0 (all_pairs P) 2⟩).diff ≤
          opp_difference g0 (all_pairs P) 2) ∧
    ∀ s, pickleball P courts N moves = some s →
      s.length ≤ (schedule g0 courts).length := by
  constructor
  · intro k
    exact runTrials_mono courts (all_pairs P) moves k 0 _
  · intro s hs
    unfold pickleball pickleballRun at hs
    rw [h] at hs
    dsimp only at hs
    by_cases hN : N ≠ 0 ∧ g0.length < 2
    · rw [if_pos hN] at hs
      simp at hs
    · rw [if_neg hN] at hs
      simp only [Option.map_some'] at hs
      have hseq := Option.some.inj hs
      rw [← hseq]
      exact (runTrials_mono courts (all_pairs P) moves N 0 _).1

/-- Closed-form check of `pickleball_non_worsening` at `P = 4`. -/
theorem pickleball_non_worsening_witness :
    make_games (all_pairs 4) = some [((0,1),(2,3)), ((0,2),(1,3)), ((0,3),(1,2))] ∧
    ∀ s, pickleball 4 2 1 (fun _ => ((0, 1), (0, 0))) = some s →
      s.length ≤ (schedule [((0,1),(2,3)), ((0,2),(1,3)), ((0,3),(1,2))] 2).length :=
  ⟨by decide, (pickleball_non_worsening 4 2 1 (fun _ => ((0, 1), (0, 0)))
      [((0,1),(2,3)), ((0,2),(1,3)), ((0,3),(1,2))] (by decide)).2⟩

/-! ### Determinism in the random stream -/

theorem runTrials_congr (C : Nat) (pairs : List Pair) (m1 m2 : Nat → Move) :
    ∀ n t st, (∀ k, k < n → m1 (t + k) = m2 (t + k)) →
    runTrials C pairs m1 t n st = runTrials C pairs m2 t n st := by
  intro n
  induction n with
  | zero => intro t st _; rfl
  | succ n ih =>
    intro t st h
    simp only [runTrials]
    rw [show m1 t = m2 t from by simpa using h 0 (by omega)]
    refine ih (t+1) _ ?_
    intro k hk
    have e : t + 1 + k = t + (k + 1) := by omega
    rw [e]
    exact h (k+1) (by omega)

/-- C2 (amended): `pickleball` is a pure function of `(P, courts, N)` and the
random draws consumed — two runs whose streams agree on the first `N` draws
return identical schedules.  (The code's output is not a function of a `seed`
argument: `pickleball` has none, and the draws come from the hidden global
`random` stream position at call time; see the counterexample.) -/
theorem pickleball_deterministic_in_stream (P C N : Nat) (m1 m2 : Nat → Move)
    (h : ∀ t, t < N → m1 t = m2 t) :
    pickleball P C N m1 = pickleball P C N m2 := by
  unfold pickleball pickleballRun
  cases make_games (all_pairs P) with
  | none => rfl
  | some g =>
    dsimp only
    by_cases hN : N ≠ 0 ∧ g.length < 2
    · rw [if_pos hN, if_pos hN]
    · rw [if_neg hN, if_neg hN,
        runTrials_congr C (all_pairs P) m1 m2 N 0 _ (fun k hk => by simpa using h k hk)]

/-- Closed-form check of `pickleball_deterministic_in_stream`: two streams
agreeing on their one consumed draw. -/
theorem pickleball_deterministic_in_stream_witness :
    (∀ t, t < 1 → (fun _ : Nat => (((0, 11), (0, 0)) : Move)) t =
      (fun t : Nat => if t < 1 then (((0, 11), (0, 0)) : Move) else ((5, 5), (1, 1))) t) ∧
    pickleball 8 2 1 (fun _ => ((0, 11), (0, 0))) =
      pickleball 8 2 1 (fun t => if t < 1 then ((0, 11), (0, 0)) else ((5, 5), (1, 1))) :=
  ⟨fun t ht => by simp [ht], pickleball_deterministic_in_stream 8 2 1 _ _
    (fun t ht => by simp [ht])⟩

set_option maxRecDepth 100000 in
/-- C2 (counterexample): with identical declared arguments `(P, courts, N) =
(8, 2, 1)` but different positions of the hidden random stream (modelled by
two different draw streams), `pickleball` returns different schedules — the
result is not a pure function of the declared inputs, because the source
consumes the process-wide `random` stream and takes no seed parameter. -/
theorem pickleball_hidden_state_counterexample :
    pickleball 8 2 1 (fun _ => ((0, 11), (0, 0))) ≠
    pickleball 8 2 1 (fun _ => ((0, 1), (0, 0))) := by
  decide

set_option maxRecDepth 1000000 in
/-- C7: `pickleball(16, 4, N)` never returns more than 15 rounds: the initial
greedy `schedule(make_games(all_pairs(16)), 4)` has exactly 15 rounds and the
hillclimber never accepts a round-count increase. -/
theorem pickleball_16_4_rounds :
    ((make_games (all_pairs 16)).map (fun g => (schedule g 4).length) = some 15) ∧
    ∀ N moves s, pickleball 16 4 N moves = some s → s.length ≤ 15 := by
  have h15 : (make_games (all_pairs 16)).map (fun g => (schedule g 4).length) = some 15 := by
    decide
  refine ⟨h15, ?_⟩
  intro N moves s hs
  obtain ⟨g0, hg0, hlen⟩ := Option.map_eq_some'.mp h15
  unfold pickleball pickleballRun at hs
  rw [hg0] at hs
  dsimp only at hs
  by_cases hN : N ≠ 0 ∧ g0.length < 2
  · rw [if_pos hN] at hs
    simp at hs
  · rw [if_neg hN] at hs
    simp only [Option.map_some'] at hs
    have hseq := Option.some.inj hs
    rw [← hseq]
    calc (runTrials 4 (all_pairs 16) moves 0 N
        ⟨g0, schedule g0 4, opp_difference g0 (all_pairs 16) 2⟩).sched.length
        ≤ (schedule g0 4).length := (runTrials_mono 4 (all_pairs 16) moves N 0 _).1
      _ ≤ 15 := by omega

set_option maxRecDepth 1000000 in
/-- Closed-form check of `pickleball_16_4_rounds` at `N = 0`. -/
theorem pickleball_16_4_rounds_witness :
    ∃ s, pickleball 16 4 0 (fun _ => ((0, 0), (0, 0))) = some s ∧ s.length ≤ 15 := by
  obtain ⟨g0, hg0, hlen⟩ := Option.map_eq_some'.mp pickleball_16_4_rounds.1
  have he : pickleball 16 4 0 (fun _ => ((0, 0), (0, 0))) = some (schedule g0 4) := by
    unfold pickleball pickleballRun
    rw [hg0]
    dsimp only
    rw [if_neg (by simp)]
    rfl
  exact ⟨schedule g0 4, he, pickleball_16_4_rounds.2 0 _ _ he⟩

/-! ### `swap`: pair-multiset preservation and involution -/

theorem getSide_setSide_same (g : Game) (a : Nat) (p : Pair) :
    getSide (setSide g a p) a = p := by
  unfold getSide setSide
  by_cases h : a = 0 <;> simp [h]

theorem setSide_setSide_same (g : Game) (a : Nat) (p q : Pair) :
    setSide (setSide g a p) a q = setSide g a q := by
  unfold setSide
  by_cases h : a = 0 <;> simp [h]

theorem setSide_getSide_self (g : Game) (a : Nat) :
    setSide g a (getSide g a) = g := by
  unfold getSide setSide
  by_cases h : a = 0 <;> simp [h]

theorem swap_length (games : List Game) (idx : Move) :
    (swap games idx).length = games.length := by
  unfold swap
  rw [List.length_set, List.length_set]

theorem getD_set_self {l : List Game} {i : Nat} (h : i < l.length) (v d : Game) :
    (l.set i v).getD i d = v := by
  rw [List.getD_eq_getElem?_getD, List.getElem?_set_self h, Option.getD_some]

theorem getD_set_ne {l : List Game} {i j : Nat} (h : i ≠ j) (v d : Game) :
    (l.set i v).getD j d = l.getD j d := by
  rw [List.getD_eq_getElem?_getD, List.getD_eq_getElem?_getD, List.getElem?_set_ne h]

theorem set_getD_self : ∀ (l : List Game) (i : Nat), i < l.length →
    ∀ d : Game, l.set i (l.getD i d) = l := by
  intro l
  induction l with
  | nil => intro i h; simp at h
  | cons x l ih =>
    intro i h d
    cases i with
    | zero => rfl
    | succ i =>
      show x :: l.set i (l.getD i d) = x :: l
      rw [ih i (by simpa using h) d]

theorem count_setSide_pairs (g : Game) (c : Nat) (p q : Pair) :
    ([(setSide g c p).1, (setSide g c p).2] : List Pair).count q +
      (if getSide g c = q then 1 else 0) =
    ([g.1, g.2] : List Pair).count q + (if p = q then 1 else 0) := by
  unfold getSide setSide
  by_cases h : c = 0 <;>
    simp only [h, if_true, if_false, List.count_cons, List.count_nil, beq_iff_eq] <;>
    split_ifs <;> omega

theorem count_listPairsOf_set :
    ∀ (l : List Game) (i : Nat), i < l.length → ∀ (v d : Game) (q : Pair),
    (listPairsOf (l.set i v)).count q + ([(l.getD i d).1, (l.getD i d).2] : List Pair).count q =
    (listPairsOf l).count q + ([v.1, v.2] : List Pair).count q := by
  intro l
  induction l with
  | nil => intro i h; simp at h
  | cons g l ih =>
    intro i h v d q
    cases i with
    | zero =>
      show (listPairsOf (v :: l)).count q + _ = _
      simp only [listPairsOf_cons, List.count_cons, List.count_nil, List.getD_cons_zero]
      split_ifs <;> omega
    | succ i =>
      have e1 : (g :: l).set (i+1) v = g :: l.set i v := rfl
      have e2 : (g :: l).getD (i+1) d = l.getD i d := rfl
      rw [e1, e2, listPairsOf_cons, listPairsOf_cons]
      have hih := ih i (by simpa using h) v d q
      simp only [List.count_cons, List.count_nil] at hih ⊢
      split_ifs at hih ⊢ <;> omega

theorem getSide_setSide_of_getSide (old : Game) (a b : Nat) :
    getSide (setSide old a (getSide old b)) b = getSide old b := by
  unfold getSide setSide
  by_cases ha : a = 0 <;> by_cases hb : b = 0 <;> simp [ha, hb]

theorem swap_pairs_count {games : List Game} {idx : Move}
    (h1 : idx.1.1 < games.length) (h2 : idx.1.2 < games.length) (q : Pair) :
    (listPairsOf (swap games idx)).count q = (listPairsOf games).count q := by
  obtain ⟨⟨g1, g2⟩, a, b⟩ := idx
  simp only at h1 h2
  unfold swap
  dsimp only
  by_cases hgg : g1 = g2
  · subst hgg
    rw [getD_set_self h1]
    have hM1 := count_listPairsOf_set games g1 h1
      (setSide (games.getD g1 dGame) a (getSide (games.getD g1 dGame) b)) dGame q
    have hM2 := count_listPairsOf_set
      (games.set g1 (setSide (games.getD g1 dGame) a (getSide (games.getD g1 dGame) b)))
      g1 (by rwa [List.length_set])
      (setSide (setSide (games.getD g1 dGame) a (getSide (games.getD g1 dGame) b)) b
        (getSide (games.getD g1 dGame) a)) dGame q
    rw [getD_set_self h1] at hM2
    have hC1 := count_setSide_pairs (games.getD g1 dGame) a
      (getSide (games.getD g1 dGame) b) q
    have hC2 := count_setSide_pairs
      (setSide (games.getD g1 dGame) a (getSide (games.getD g1 dGame) b)) b
      (getSide (games.getD g1 dGame) a) q
    rw [getSide_setSide_of_getSide] at hC2
    split_ifs at hC1 hC2 <;> omega
  · rw [getD_set_ne hgg]
    have hM1 := count_listPairsOf_set games g1 h1
      (setSide (games.getD g1 dGame) a (getSide (games.getD g2 dGame) b)) dGame q
    have hM2 := count_listPairsOf_set
      (games.set g1 (setSide (games.getD g1 dGame) a (getSide (games.getD g2 dGame) b)))
      g2 (by rwa [List.length_set])
      (setSide (games.getD g2 dGame) b (getSide (games.getD g1 dGame) a)) dGame q
    rw [getD_set_ne hgg] at hM2
    have hC1 := count_setSide_pairs (games.getD g1 dGame) a
      (getSide (games.getD g2 dGame) b) q
    have hC2 := count_setSide_pairs (games.getD g2 dGame) b
      (getSide (games.getD g1 dGame) a) q
    split_ifs at hC1 hC2 <;> omega

theorem swap_eq (games : List Game) (g1 g2 a b : Nat) (hne : g1 ≠ g2) :
    swap games ((g1,g2),(a,b)) =
      (games.set g1 (setSide (games.getD g1 dGame) a (getSide (games.getD g2 dGame) b))).set g2
        (setSide (games.getD g2 dGame) b (getSide (games.getD g1 dGame) a)) := by
  unfold swap
  dsimp only
  rw [getD_set_ne hne]

theorem swap_eq_diag (games : List Game) (g a b : Nat) (hg : g < games.length) :
    swap games ((g,g),(a,b)) =
      games.set g (setSide (setSide (games.getD g dGame) a (getSide (games.getD g dGame) b)) b
        (getSide (games.getD g dGame) a)) := by
  unfold swap
  dsimp only
  rw [getD_set_self hg, List.set_set]

theorem swap_swap {games : List Game} {idx : Move}
    (h1 : idx.1.1 < games.length) (h2 : idx.1.2 < games.length) :
    swap (swap games idx) idx = games := by
  obtain ⟨⟨g1, g2⟩, a, b⟩ := idx
  simp only at h1 h2
  by_cases hgg : g1 = g2
  · subst hgg
    rw [swap_eq_diag games g1 a b h1,
      swap_eq_diag _ g1 a b (by rw [List.length_set]; exact h1)]
    simp only [getD_set_self h1, List.set_set]
    have hgame : ∀ old : Game,
        setSide (setSide (setSide (setSide old a (getSide old b)) b (getSide old a)) a
          (getSide (setSide (setSide old a (getSide old b)) b (getSide old a)) b)) b
          (getSide (setSide (setSide old a (getSide old b)) b (getSide old a)) a) = old := by
      intro old
      by_cases ha : a = 0 <;> by_cases hb : b = 0 <;> simp [getSide, setSide, ha, hb]
    rw [hgame, set_getD_self games g1 h1]
  · rw [swap_eq games g1 g2 a b hgg,
      swap_eq _ g1 g2 a b hgg]
    rw [getD_set_self (by rw [List.length_set]; exact h2),
      getD_set_ne (Ne.symm hgg), getD_set_self h1]
    rw [getSide_setSide_same, setSide_setSide_same, setSide_getSide_self]
    rw [getSide_setSide_same, setSide_setSide_same, setSide_getSide_self]
    rw [List.set_comm _ _ _ (Ne.symm hgg), List.set_set, List.set_set,
      set_getD_self games g1 h1, set_getD_self games g2 h2]

theorem swap_pairs_perm {games : List Game} {idx : Move}
    (h1 : idx.1.1 < games.length) (h2 : idx.1.2 < games.length) :
    (listPairsOf (swap games idx)).Perm (listPairsOf games) := by
  rw [List.perm_iff_count]
  intro q
  exact swap_pairs_count h1 h2 q

theorem trial_state_invariant (C : Nat) (pairs : List Pair) (st : HState) (mv : Move)
    (hmv1 : mv.1.1 < st.games.length) (hmv2 : mv.1.2 < st.games.length)
    (hsched : st.sched = schedule st.games C) :
    (trial C pairs st mv).games.length = st.games.length ∧
    (trial C pairs st mv).sched = schedule (trial C pairs st mv).games C ∧
    (listPairsOf (trial C pairs st mv).games).Perm (listPairsOf st.games) := by
  unfold trial
  dsimp only
  split_ifs with h
  · exact ⟨swap_length st.games mv, rfl, swap_pairs_perm hmv1 hmv2⟩
  · have hb : swap (swap st.games mv) mv = st.games := swap_swap hmv1 hmv2
    rw [hb]
    exact ⟨rfl, hsched, List.Perm.refl _⟩

theorem runTrials_invariant (C : Nat) (pairs : List Pair) (moves : Nat → Move) (L : Nat)
    (hmv : ∀ t, (moves t).1.1 < L ∧ (moves t).1.2 < L) :
    ∀ n t st, st.games.length = L → st.sched = schedule st.games C →
      (runTrials C pairs moves t n st).games.length = L ∧
      (runTrials C pairs moves t n st).sched =
        schedule (runTrials C pairs moves t n st).games C ∧
      (listPairsOf (runTrials C pairs moves t n st).games).Perm (listPairsOf st.games) := by
  intro n
  induction n with
  | zero => intro t st h1 h2; exact ⟨h1, h2, List.Perm.refl _⟩
  | succ n ih =>
    intro t st h1 h2
    simp only [runTrials]
    have htr := trial_state_invariant C pairs st (moves t)
      (by rw [h1]; exact (hmv t).1) (by rw [h1]; exact (hmv t).2) h2
    have hrec := ih (t+1) (trial C pairs st (moves t)) (htr.1.trans h1) htr.2.1
    exact ⟨hrec.1, hrec.2.1, hrec.2.2.trans htr.2.2⟩

/-- C10: `swap` only exchanges two pair slots, so the multiset of pairs held
across the games is preserved by any in-range swap; applying the same swap
again restores the previous list exactly (rejected trials revert the state);
hence at every point of the hillclimb the games hold the same multiset of
pairs as `make_games`'s output, and so does the returned schedule. -/
theorem pickleball_pair_multiset_invariant :
    (∀ (games : List Game) (idx : Move),
      idx.1.1 < games.length → idx.1.2 < games.length →
      (↑(listPairsOf (swap games idx)) : Multiset Pair) = ↑(listPairsOf games) ∧
      swap (swap games idx) idx = games) ∧
    (∀ (P C N : Nat) (moves : Nat → Move) (g0 : List Game),
      make_games (all_pairs P) = some g0 →
      (∀ t, (moves t).1.1 < g0.length ∧ (moves t).1.2 < g0.length) →
      (∀ k, (↑(listPairsOf ((runTrials C (all_pairs P) moves 0 k
          ⟨g0, schedule g0 C, opp_difference g0 (all_pairs P) 2⟩).games)) : Multiset Pair) =
        ↑(listPairsOf g0)) ∧
      (1 ≤ C → ∀ s, pickleball P C N moves = some s →
        (↑(listPairsOf (s.flatMap id)) : Multiset Pair) = ↑(listPairsOf g0))) := by
  constructor
  · intro games idx h1 h2
    exact ⟨Multiset.coe_eq_coe.mpr (swap_pairs_perm h1 h2), swap_swap h1 h2⟩
  · intro P C N moves g0 hmk hmv
    constructor
    · intro k
      exact Multiset.coe_eq_coe.mpr
        (runTrials_invariant C (all_pairs P) moves g0.length hmv k 0 _ rfl rfl).2.2
    · intro hC s hs
      unfold pickleball pickleballRun at hs
      rw [hmk] at hs
      dsimp only at hs
      by_cases hN : N ≠ 0 ∧ g0.length < 2
      · rw [if_pos hN] at hs
        simp at hs
      · rw [if_neg hN] at hs
        simp only [Option.map_some'] at hs
        have hseq := Option.some.inj hs
        have hinv := runTrials_invariant C (all_pairs P) moves g0.length hmv N 0
          ⟨g0, schedule g0 C, opp_difference g0 (all_pairs P) 2⟩ rfl rfl
        have hflat : ((schedule (runTrials C (all_pairs P) moves 0 N
            ⟨g0, schedule g0 C, opp_difference g0 (all_pairs P) 2⟩).games C).flatMap id).Perm
            (runTrials C (all_pairs P) moves 0 N
              ⟨g0, schedule g0 C, opp_difference g0 (all_pairs P) 2⟩).games :=
          (scheduleF_correct hC _ _ (by omega)).1
        rw [← hseq, hinv.2.1]
        exact Multiset.coe_eq_coe.mpr
          ((perm_listPairsOf hflat).trans hinv.2.2)

/-- Closed-form check of `pickleball_pair_multiset_invariant` at a concrete
swap and a one-trial run for `P = 4`. -/
theorem pickleball_pair_multiset_invariant_witness :
    ((↑(listPairsOf (swap [((0,1),(2,3)), ((0,2),(1,3))] ((0,1),(0,1)))) : Multiset Pair) =
      ↑(listPairsOf [((0,1),(2,3)), ((0,2),(1,3))]) ∧
     swap (swap [((0,1),(2,3)), ((0,2),(1,3))] ((0,1),(0,1))) ((0,1),(0,1)) =
      [((0,1),(2,3)), ((0,2),(1,3))]) ∧
    (1 ≤ 2 → ∀ s, pickleball 4 2 1 (fun _ => ((0, 1), (0, 0))) = some s →
      (↑(listPairsOf (s.flatMap id)) : Multiset Pair) =
        ↑(listPairsOf [((0,1),(2,3)), ((0,2),(1,3)), ((0,3),(1,2))])) :=
  ⟨pickleball_pair_multiset_invariant.1 [((0,1),(2,3)), ((0,2),(1,3))] ((0,1),(0,1))
      (by decide) (by decide),
   (pickleball_pair_multiset_invariant.2 4 2 1 (fun _ => ((0, 1), (0, 0)))
      [((0,1),(2,3)), ((0,2),(1,3)), ((0,3),(1,2))] (by decide)
      (fun t => ⟨by show (0:Nat) < 3; decide, by show (1:Nat) < 3; decide⟩)).2⟩

/-! ### The opponent-imbalance cost -/

theorem int_sum_eq_zero {l : List Int} (h : ∀ x ∈ l, 0 ≤ x) :
    l.sum = 0 ↔ ∀ x ∈ l, x = 0 := by
  induction l with
  | nil => simp
  | cons x l ih =>
    simp only [List.sum_cons, List.mem_cons]
    constructor
    · intro h0
      have hx : 0 ≤ x := h x (by simp)
      have hs : 0 ≤ l.sum := List.sum_nonneg (fun y hy => h y (by simp [hy]))
      have hx0 : x = 0 := by omega
      have hs0 : l.sum = 0 := by omega
      intro y hy
      rcases hy with rfl | hy
      · exact hx0
      · exact (ih (fun z hz => h z (by simp [hz]))).mp hs0 y hy
    · intro hz
      have hs0 : l.sum = 0 := (ih (fun z hz => h z (by simp [hz]))).mpr
        (fun y hy => hz y (Or.inr hy))
      have hx0 : x = 0 := hz x (Or.inl rfl)
      omega

/-- C6: `opp_difference(games, pairs, optimal)` is zero exactly when every
pair of the `pairs` argument meets as opponents exactly `optimal` times in
`games`; a pair with tally zero (one that never meets) still contributes
`|0 − optimal|³` to the sum — `8` for the default `optimal = 2`. -/
theorem opp_difference_spec :
    (∀ (games : List Game) (pairs : List Pair) (optimal : Int),
      opp_difference games pairs optimal = 0 ↔
        ∀ p ∈ pairs, (opponents games p : Int) = optimal) ∧
    (∀ (games : List Game) (pairs : List Pair) (optimal : Int) (p : Pair),
      opponents games p = 0 →
      opp_difference games (p :: pairs) optimal =
        |(0 : Int) - optimal| ^ 3 + opp_difference games pairs optimal) ∧
    (∀ (games : List Game) (pairs : List Pair) (p : Pair),
      opponents games p = 0 →
      opp_difference games (p :: pairs) 2 = 8 + opp_difference games pairs 2) := by
  have habs : ∀ (t optimal : Int), (0 : Int) ≤ |t - optimal| ^ 3 :=
    fun t o => pow_nonneg (abs_nonneg _) 3
  refine ⟨?_, ?_, ?_⟩
  · intro games pairs optimal
    unfold opp_difference
    rw [int_sum_eq_zero (by
      intro x hx
      rcases List.mem_map.mp hx with ⟨p, hp, rfl⟩
      exact habs _ _)]
    constructor
    · intro h p hp
      have h0 := h _ (List.mem_map.mpr ⟨p, hp, rfl⟩)
      have h3 : |(opponents games p : Int) - optimal| = 0 :=
        pow_eq_zero_iff (by norm_num) |>.mp h0
      have h4 := abs_eq_zero.mp h3
      omega
    · intro h x hx
      rcases List.mem_map.mp hx with ⟨p, hp, rfl⟩
      rw [h p hp]
      simp
  · intro games pairs optimal p hp
    unfold opp_difference
    rw [List.map_cons, List.sum_cons, hp]
    norm_num
  · intro games pairs p hp
    unfold opp_difference
    rw [List.map_cons, List.sum_cons, hp]
    norm_num

/-- Closed-form check of `opp_difference_spec` on a one-game list where the
partner pair `(0, 1)` never meets as opponents. -/
theorem opp_difference_spec_witness :
    opponents [(((0,1) : Pair), ((2,3) : Pair))] (0,1) = 0 ∧
    opp_difference [(((0,1) : Pair), ((2,3) : Pair))] [(0,1)] 2 =
      8 + opp_difference [(((0,1) : Pair), ((2,3) : Pair))] [] 2 :=
  ⟨by decide, opp_difference_spec.2.2 [((0,1),(2,3))] [] (0,1) (by decide)⟩

/-! ### No eager input validation exists in the code -/

/-- C3 (counterexample): the claim says `all_pairs(P)` fails with
`InvalidConfiguration` for `P < 2` and `pickleball` rejects `P < 4` or
`C < 1` before constructing anything; in fact `all_pairs` returns the empty
list for `P ∈ {0, 1}` and `pickleball(2, 0, 0)` returns the empty schedule —
no validation happens. -/
theorem no_validation_counterexample :
    all_pairs 1 = [] ∧ all_pairs 0 = [] ∧
    pickleball 2 0 0 (fun _ => ((0,0),(0,0))) = some [] :=
  ⟨rfl, rfl, by decide⟩

/-- C3 (amended): the code performs no input validation.  `all_pairs(P)`
returns `[]` for `P < 2`; `pickleball(2, 0, 0)` returns the empty schedule;
and for `P = 3` `pickleball` crashes (modelled `none`) only after attempting
construction — `make_games(all_pairs(3))` runs first and returns the
no-match `None`, and the subsequent `opp_difference` raises. -/
theorem no_eager_validation :
    all_pairs 0 = [] ∧ all_pairs 1 = [] ∧
    make_games (all_pairs 3) = none ∧
    (∀ courts N moves, pickleball 3 courts N moves = none) ∧
    pickleball 2 0 0 (fun _ => ((0,0),(0,0))) = some [] := by
  have h3 : make_games (all_pairs 3) = none := by decide
  refine ⟨rfl, rfl, h3, ?_, by decide⟩
  intro courts N moves
  unfold pickleball pickleballRun
  rw [h3]
  rfl

/-! ### The no-match result is structurally distinct from trivial success -/

/-- C8: `make_games` returns `some []` (trivial success) exactly on inputs
with fewer than two pairs; the no-match `none` arises only with at least two
pairs remaining, exactly when the anchor's candidate scan is exhausted; and
the two outcomes are distinct values of `Option (List Game)` — every input
yields exactly one of them. -/
theorem make_games_failure_structure :
    (∀ pairs : List Pair, pairs.length < 2 → make_games pairs = some []) ∧
    (∀ pairs : List Pair, make_games pairs = none → 2 ≤ pairs.length) ∧
    (∀ (A B : Pair) (t : List Pair), make_games (A :: B :: t) = none ↔
      tryCands (make_gamesF (t.length + 2)) A (A :: B :: t) (A :: B :: t) = none) ∧
    make_games (all_pairs 3) = none ∧
    (some ([] : List Game) ≠ (none : Option (List Game))) := by
  have hbase : ∀ pairs : List Pair, pairs.length < 2 → make_games pairs = some [] := by
    intro pairs h
    rcases pairs with _ | ⟨p, _ | ⟨q, t⟩⟩
    · rfl
    · rfl
    · simp only [List.length_cons] at h
      omega
  refine ⟨hbase, ?_, ?_, by decide, by simp⟩
  · intro pairs h
    by_contra hlt
    push_neg at hlt
    rw [hbase pairs hlt] at h
    cases h
  · intro A B t
    rw [make_games_cons_cons]

/-- Closed-form check of `make_games_failure_structure`: trivial success on a
one-pair input, and the no-match on `all_pairs(3)` indeed has at least two
pairs remaining. -/
theorem make_games_failure_structure_witness :
    (([((0,1) : Pair)].length < 2) ∧ make_games [((0,1) : Pair)] = some []) ∧
    2 ≤ (all_pairs 3).length :=
  ⟨⟨by decide, make_games_failure_structure.1 [(0,1)] (by decide)⟩,
   make_games_failure_structure.2.1 (all_pairs 3) (by decide)⟩
